import Mathlib

/-
Verification of the image-collection navigation subsystem of the oculante
fork: the favourite-interleaving sequence builder and navigation cursor
(src/scrubber.rs), the bounded decode cache with age-based eviction
(src/cache.rs), and the durable favourites store with its tab-separated
path encoding (src/db.rs, src/main.rs).

Embedding choices:
  * a Rust `PathBuf` is its list of components, each component a list of
    characters (`List Char`), so that the tab-encoding of `db.rs` is
    statable character by character;
  * `std::time::Instant` is a natural-number tick; every call of
    `Instant::now()` reads the cache's `clock` field and increments it,
    which models the strict monotonicity of `Instant`;
  * `HashMap<PathBuf, CachedImage>` is an association list with pairwise
    distinct keys, `HashSet` membership is list membership;
  * a Rust operation that can panic is embedded as a function into
    `Option`, with `none` marking the panic.
-/

set_option autoImplicit false

/-- A path, as its list of components (Rust `PathBuf`); `PathBuf::new()`
is the empty list, `PathBuf::push` of one component appends it. -/
abbrev PathBuf := List (List Char)

/-- The reserved separator used by the favourites store encoding. -/
def sepChar : Char := '\t'

/-- Rust `str::split("\t")` on a character list: the list of runs between
tab characters.  `split` of the empty string is `[""]`. -/
def splitTab : List Char → List (List Char)
  | [] => [[]]
  | c :: rest =>
    if c = sepChar then
      [] :: splitTab rest
    else
      match splitTab rest with
      | [] => [[c]]
      | part :: parts => (c :: part) :: parts

/-- Itertools `join("\t")`: interleave a tab between consecutive parts. -/
def joinTab : List (List Char) → List Char
  | [] => []
  | [part] => part
  | part :: parts => part ++ sepChar :: joinTab parts

/-- Rust `Path::strip_prefix`, on component lists: drop `root` from the
front of `path` when it is there, otherwise fail (the `unwrap` in
`prepare_record` turns the failure into a panic, i.e. `none`). -/
def stripRoot : PathBuf → PathBuf → Option PathBuf
  | [], path => some path
  | _ :: _, [] => none
  | r :: rs, c :: cs => if c = r then stripRoot rs cs else none

/-- `DB::prepare_record` (src/db.rs): strip the folder from the path and
join the remaining components with a tab. -/
def prepare_record (folder img_path : PathBuf) : Option (List Char) :=
  (stripRoot folder img_path).map joinTab

/-- `join_path_parts` (src/db.rs and src/scrubber.rs): split the record
on tabs and push each part onto a fresh `PathBuf`. -/
def join_path_parts (path_with_tabs : List Char) : PathBuf :=
  splitTab path_with_tabs

/-- Decoding a stored record as `DB::get_all` does: rebuild the relative
path from the record and resolve it against the folder. -/
def decode_record (folder : PathBuf) (record : List Char) : PathBuf :=
  folder ++ join_path_parts record

/-- The navigation state machine of src/scrubber.rs. -/
structure Scrubber where
  index : Nat
  entries : List PathBuf
  wrap : Bool
  favourites : List PathBuf
  deriving DecidableEq, Repr

/-- `Scrubber::next` (src/scrubber.rs): step the cursor forward, wrapping
to 0 or clamping to `len - 1` past the end; returns the entry at the new
cursor, or the default (empty) path when the sequence is empty.  Nat
subtraction is truncated, matching `saturating_sub`. -/
def Scrubber.next (s : Scrubber) : Scrubber × PathBuf :=
  let stepped := s.index + 1
  let new :=
    if stepped > s.entries.length - 1 then
      if s.wrap then 0 else s.entries.length - 1
    else stepped
  ({ s with index := new }, (s.entries.getD new []))

/-- `Scrubber::prev` (src/scrubber.rs). -/
def Scrubber.prev (s : Scrubber) : Scrubber × PathBuf :=
  let new :=
    if s.index = 0 then
      if s.wrap then s.entries.length - 1 else s.index
    else s.index - 1
  ({ s with index := new }, (s.entries.getD new []))

/-- `Scrubber::set` (src/scrubber.rs): move the cursor only when the
index is in range, then return the entry at the (possibly unchanged)
cursor. -/
def Scrubber.set (s : Scrubber) (index : Nat) : Scrubber × PathBuf :=
  let s1 := if index < s.entries.length then { s with index := index } else s
  (s1, (s1.entries.getD s1.index []))

/-- The state reached by `Scrubber::next`, discarding the returned path. -/
def nextState (s : Scrubber) : Scrubber :=
  (s.next).1

/-- The loop of `insert_after_every` (src/scrubber.rs lines 196-206):
walk `main` with its enumeration index `i`, skipping members of the
favourite set, pushing every other element, and after a pushed element
splicing in the next favourite when `other_i < other.length` and
`(i + 1) % after = 0`.  Rust `&&` is short-circuit, so the remainder is
only evaluated (and `% 0` only panics, i.e. yields `none`) when favourites
remain.  Returns the pushed list and the final favourite cursor. -/
def iaeLoop (otherSet other : List PathBuf) (after : Nat) :
    List PathBuf → Nat → Nat → Option (List PathBuf × Nat)
  | [], _, j => some ([], j)
  | x :: rest, i, j =>
    if x ∈ otherSet then
      iaeLoop otherSet other after rest (i + 1) j
    else if j < other.length then
      if after = 0 then
        none
      else if (i + 1) % after = 0 then
        (iaeLoop otherSet other after rest (i + 1) (j + 1)).map
          (fun r => (x :: other.getD j [] :: r.1, r.2))
      else
        (iaeLoop otherSet other after rest (i + 1) j).map
          (fun r => (x :: r.1, r.2))
    else
      (iaeLoop otherSet other after rest (i + 1) j).map
        (fun r => (x :: r.1, r.2))

/-- `insert_after_every` (src/scrubber.rs lines 191-214): run the loop
from index 0 with favourite cursor 0, then append the favourites not yet
placed (the trailing `while` loop). -/
def insert_after_every (main_vector other_vector : List PathBuf) (after : Nat) :
    Option (List PathBuf) :=
  (iaeLoop other_vector other_vector after main_vector 0 0).map
    (fun r => r.1 ++ other_vector.drop r.2)

/-- Pair each element of a list with its index, starting from `i`
(Rust `enumerate`, generalized start). -/
def withIdx (i : Nat) : List PathBuf → List (Nat × PathBuf)
  | [] => []
  | x :: rest => (i, x) :: withIdx (i + 1) rest

/-- Splice favourites into an already filtered, index-carrying list:
after the element of original index `i`, when `(i + 1) % after = 0` and
favourites remain, place the next favourite; at the end, append the
leftover favourites. -/
def spliceWalk (other : List PathBuf) (after : Nat) :
    List (Nat × PathBuf) → Nat → List PathBuf
  | [], j => other.drop j
  | (i, x) :: rest, j =>
    if j < other.length ∧ (i + 1) % after = 0 then
      x :: other.getD j [] :: spliceWalk other after rest (j + 1)
    else
      x :: spliceWalk other after rest j

/-- The interleaving described positionally: filter the favourites out of
the enumerated main list, then splice by original index. -/
def interleave_spec (main other : List PathBuf) (after : Nat) : List PathBuf :=
  spliceWalk other after ((withIdx 0 main).filter (fun p => decide (p.2 ∉ other))) 0

/-- The discipline asserted by the spec: every favourite in the result
sits at a point where the number of preceding non-favourite items is a
multiple of `n`. -/
def favsOnlyAtMultiples (result other : List PathBuf) (n : Nat) : Prop :=
  ∀ k, k < result.length → result.getD k [] ∈ other →
    ((result.take k).filter (fun x => decide (x ∉ other))).length % n = 0

instance (result other : List PathBuf) (n : Nat) :
    Decidable (favsOnlyAtMultiples result other n) := by
  unfold favsOnlyAtMultiples
  infer_instance

/-- A cached decoded image (src/cache.rs): the pixel data, modelled
opaquely as a number, and the creation instant, modelled as a tick. -/
structure CachedImage where
  data : Nat
  created : Nat
  deriving DecidableEq, Repr

/-- `HashMap::insert`: replace the value at the key if present, else add
the new entry. -/
def mapInsert (k : PathBuf) (v : CachedImage) :
    List (PathBuf × CachedImage) → List (PathBuf × CachedImage)
  | [] => [(k, v)]
  | (k1, v1) :: rest =>
    if k1 = k then (k, v) :: rest else (k1, v1) :: mapInsert k v rest

/-- `HashMap::get`: the value at the key, if any. -/
def mapLookup (k : PathBuf) : List (PathBuf × CachedImage) → Option CachedImage
  | [] => none
  | (k1, v1) :: rest => if k1 = k then some v1 else mapLookup k rest

/-- `HashMap::remove`: drop the entry at the key, if any. -/
def mapRemove (k : PathBuf) :
    List (PathBuf × CachedImage) → List (PathBuf × CachedImage)
  | [] => []
  | (k1, v1) :: rest =>
    if k1 = k then rest else (k1, v1) :: mapRemove k rest

/-- The keys of the association list. -/
def keysOf (m : List (PathBuf × CachedImage)) : List PathBuf :=
  m.map (fun e => e.1)

/-- The eviction scan of `Cache::insert` (src/cache.rs lines 39-47):
fold over the entries keeping the strictly smallest creation instant seen
so far and its key; `latest` starts at a fresh `Instant::now()` and `key`
at `PathBuf::new()`. -/
def findOldest : List (PathBuf × CachedImage) → Nat → PathBuf → Nat × PathBuf
  | [], latest, key => (latest, key)
  | (p, c) :: rest, latest, key =>
    if c.created < latest then
      findOldest rest c.created p
    else
      findOldest rest latest key

/-- The decode cache (src/cache.rs): the map, the capacity and the clock
that models `Instant::now()`. -/
structure Cache where
  data : List (PathBuf × CachedImage)
  cache_size : Nat
  clock : Nat
  deriving DecidableEq, Repr

/-- `Cache::get` (src/cache.rs): a clone of the stored image, if any. -/
def Cache.get (c : Cache) (path : PathBuf) : Option Nat :=
  (mapLookup path c.data).map (fun e => e.data)

/-- `Cache::clear` (src/cache.rs). -/
def Cache.clear (c : Cache) : Cache :=
  { c with data := [] }

/-- `Cache::insert` (src/cache.rs lines 30-50): store the image under the
path with a fresh creation instant; then, when the entry count exceeds
the capacity, scan for the entry with the smallest creation instant and
remove it.  The two `Instant::now()` calls each advance the clock. -/
def Cache.insert (c : Cache) (path : PathBuf) (img : Nat) : Cache :=
  let data1 := mapInsert path { data := img, created := c.clock } c.data
  let clock1 := c.clock + 1
  if data1.length > c.cache_size then
    let scan := findOldest data1 clock1 []
    { data := mapRemove scan.2 data1, cache_size := c.cache_size,
      clock := clock1 + 1 }
  else
    { data := data1, cache_size := c.cache_size, clock := clock1 }

/-- Well-formedness of a cache state, holding in every state reachable
from an empty cache: keys are pairwise distinct, creation instants are
pairwise distinct, and every creation instant precedes the clock. -/
structure CacheWF (c : Cache) : Prop where
  keys_nodup : (keysOf c.data).Nodup
  created_lt : ∀ e ∈ c.data, e.2.created < c.clock
  created_pairwise : c.data.Pairwise (fun a b => a.2.created ≠ b.2.created)

/-- The favourites store (src/db.rs): the optional open connection, the
folder the store is scoped to, and the rows of the single-column
`favourites` table, each row the tab-encoded record (the primary key). -/
structure DB where
  connection : Option Unit
  folder : PathBuf
  table : List (List Char)
  deriving DecidableEq, Repr

/-- `DB::new` (src/db.rs): open the connection and create the table if it
does not exist; `diskTable` is the persisted content of the database file
in the folder. -/
def DB.new (folder : PathBuf) (diskTable : List (List Char)) : DB :=
  { connection := some (), folder := folder, table := diskTable }

/-- `DB::insert` (src/db.rs lines 29-36): encode the record (the
`strip_prefix` unwrap panics when the path is not under the folder), then
run the SQL INSERT.  `path` is the table's primary key, so SQLite rejects
an INSERT of an already present record with a constraint violation, and
the `expect` turns that into a panic: `none`. -/
def DB.insert (db : DB) (img_path : PathBuf) : Option DB :=
  match prepare_record db.folder img_path with
  | none => none
  | some record =>
    match db.connection with
    | none => none
    | some _ =>
      if record ∈ db.table then none
      else some { db with table := db.table ++ [record] }

/-- `DB::delete` (src/db.rs lines 38-45): SQL DELETE of the record's row;
deleting an absent row succeeds and changes nothing. -/
def DB.delete (db : DB) (img_path : PathBuf) : Option DB :=
  match prepare_record db.folder img_path with
  | none => none
  | some record =>
    match db.connection with
    | none => none
    | some _ => some { db with table := db.table.erase record }

/-- `DB::get_all` (src/db.rs lines 47-61): read every row, decode it
against the folder, keep the decoded paths that exist on disk (`exists`
given as a predicate), and collect into a `HashSet` (modelled by
`dedup`).  The store itself is returned unchanged: the rows are only
read. -/
def DB.get_all (db : DB) (fileExists : PathBuf → Bool) :
    Option (DB × List PathBuf) :=
  match db.connection with
  | none => none
  | some _ =>
    some (db, ((db.table.map (decode_record db.folder)).filter fileExists).dedup)

/-- The slice of `OculanteState` (src/appstate.rs) that the favourite
toggle handler touches. -/
structure AppState where
  current_path : Option PathBuf
  db : Option DB
  folder_selected : Option PathBuf
  scrubber : Scrubber
  current_image_is_favourite : Bool
  deriving DecidableEq, Repr

/-- `add_to_favourites` (src/main.rs lines 1290-1307): with a current
path, open the store on first use, then toggle: when the path is not yet
in the scrubber's favourite set, INSERT the row and add it to the set;
otherwise DELETE the row and remove it from the set.  `diskTable` is the
persisted table used when the store is first opened. -/
def add_to_favourites (st : AppState) (diskTable : List (List Char)) :
    Option AppState :=
  match st.current_path with
  | none => some st
  | some img_path =>
    let dbOpt :=
      match st.db with
      | some db => some db
      | none =>
        match st.folder_selected with
        | none => none
        | some folder => some (DB.new folder diskTable)
    match dbOpt with
    | none => none
    | some db =>
      if img_path ∈ st.scrubber.favourites then
        match DB.delete db img_path with
        | none => none
        | some db1 =>
          some { st with
                 db := some db1,
                 scrubber := { st.scrubber with
                               favourites := st.scrubber.favourites.erase img_path },
                 current_image_is_favourite := false }
      else
        match DB.insert db img_path with
        | none => none
        | some db1 =>
          some { st with
                 db := some db1,
                 scrubber := { st.scrubber with
                               favourites := st.scrubber.favourites ++ [img_path] },
                 current_image_is_favourite := true }

/-- Concrete one-component paths used by the examples. -/
def pathA : PathBuf := [['a']]

def pathB : PathBuf := [['b']]

def pathC : PathBuf := [['c']]

def pathD : PathBuf := [['d']]

def pathE : PathBuf := [['e']]

def pathF : PathBuf := [['f']]

def pathX : PathBuf := [['x']]

/-- The spec's interleaving example: main list `[a, b, c, d, e, f]`. -/
def exMain : List PathBuf := [pathA, pathB, pathC, pathD, pathE, pathF]

/-- The spec's interleaving example: favourites `[c, e]`. -/
def exFavs : List PathBuf := [pathC, pathE]

/-- What the code produces on the spec's interleaving example. -/
def exOut : List PathBuf := [pathA, pathB, pathC, pathD, pathE, pathF]

/-- An empty cache of capacity 2 with the clock at 0. -/
def cacheCap2 : Cache := { data := [], cache_size := 2, clock := 0 }

/-- The eviction example run: three fresh inserts into a capacity-2
cache. -/
def cacheRunEvict : Cache :=
  ((cacheCap2.insert pathA 1).insert pathB 2).insert pathC 3

/-- The reinsertion example run: insert `a`, insert `b`, re-insert `a`,
insert `c` into a capacity-2 cache. -/
def cacheRunReinsert : Cache :=
  (((cacheCap2.insert pathA 1).insert pathB 2).insert pathA 4).insert pathC 3

/-- A five-entry wrapping scrubber with the cursor at 0. -/
def scrubFive : Scrubber :=
  { index := 0, entries := [pathA, pathB, pathC, pathD, pathE],
    wrap := true, favourites := [] }

/-- The same five entries without wrapping, cursor at the last index. -/
def scrubFiveNoWrap : Scrubber :=
  { index := 4, entries := [pathA, pathB, pathC, pathD, pathE],
    wrap := false, favourites := [] }

/-- A concrete favourites store: folder `[r]`, one row `"a"`. -/
def dbEx : DB :=
  { connection := some (), folder := [['r']], table := [['a']] }

/-- A concrete existence test: only `r/a` exists on disk. -/
def fileExistsEx : PathBuf → Bool :=
  fun p => decide (p = [['r'], ['a']])

/-- A concrete application state whose current path `r/a` is already a
favourite, consistently in the store row and the scrubber set. -/
def stEx : AppState :=
  { current_path := some [['r'], ['a']],
    db := some dbEx,
    folder_selected := some [['r']],
    scrubber := { index := 0, entries := [], wrap := true,
                  favourites := [[['r'], ['a']]] },
    current_image_is_favourite := true }

lemma mapLookup_mapInsert_self (m : List (PathBuf × CachedImage))
    (p : PathBuf) (v : CachedImage) :
    mapLookup p (mapInsert p v m) = some v := by
  induction m with
  | nil => simp [mapInsert, mapLookup]
  | cons e rest ih =>
    obtain ⟨k1, v1⟩ := e
    by_cases h : k1 = p
    · simp [mapInsert, mapLookup, h]
    · simp [mapInsert, mapLookup, h, ih]

lemma keysOf_cons (k : PathBuf) (v : CachedImage)
    (m : List (PathBuf × CachedImage)) :
    keysOf ((k, v) :: m) = k :: keysOf m := rfl

lemma mapInsert_length (m : List (PathBuf × CachedImage))
    (p : PathBuf) (v : CachedImage) :
    (mapInsert p v m).length =
      if p ∈ keysOf m then m.length else m.length + 1 := by
  induction m with
  | nil =>
    rw [show keysOf ([] : List (PathBuf × CachedImage)) = [] from rfl,
      if_neg (List.not_mem_nil p)]
    rfl
  | cons e rest ih =>
    obtain ⟨k1, v1⟩ := e
    by_cases h : k1 = p
    · subst h
      rw [show mapInsert k1 v ((k1, v1) :: rest) = (k1, v) :: rest from by
        simp [mapInsert]]
      rw [keysOf_cons, if_pos (List.mem_cons_self _ _)]
      rfl
    · rw [show mapInsert p v ((k1, v1) :: rest) = (k1, v1) :: mapInsert p v rest
        from by simp [mapInsert, h]]
      rw [keysOf_cons]
      rcases Decidable.em (p ∈ keysOf rest) with hm | hm
      · rw [if_pos (List.mem_cons_of_mem _ hm)]
        rw [List.length_cons, List.length_cons, ih, if_pos hm]
      · have hnp : p ∉ k1 :: keysOf rest := by
          intro hc
          rcases List.mem_cons.mp hc with hc | hc
          · exact h hc.symm
          · exact hm hc
        rw [if_neg hnp]
        rw [List.length_cons, List.length_cons, ih, if_neg hm]

/-- C2: the claim reads "calling interleave with everyN = 0 means no
interleaving: no favourite is spliced and the call completes safely
without panicking".  The code instead evaluates `(i + 1) % 0` as soon as
it retains a main element while favourites remain, and remainder by zero
panics in Rust; the panic is only skipped when the short-circuited
`other_vector_i < other_vector.len()` test fails first.  At the failing
input `main = [a]`, `favourites = [x]`, `everyN = 0` the embedded call
yields `none` (a panic); with no favourites the same spacing returns
normally. -/
theorem claim2_interleave_zero_panics :
    insert_after_every [pathA] [pathX] 0 = none ∧
    insert_after_every [pathA] [] 0 = some [pathA] := by
  decide

/-- C6: `insert` on an already present path overwrites the entry (the
lookup afterwards sees the new value and the entry count is unchanged),
and the concrete run with capacity 2 — insert `a`, insert `b`, re-insert
`a`, insert `c` at strictly increasing instants — evicts `b`, now the
oldest, and keeps `a` with its refreshed creation instant. -/
theorem claim6_reinsert_resets_age :
    (∀ (m : List (PathBuf × CachedImage)) (p : PathBuf) (v : CachedImage),
       mapLookup p (mapInsert p v m) = some v ∧
       (p ∈ keysOf m → (mapInsert p v m).length = m.length)) ∧
    keysOf cacheRunReinsert.data = [pathA, pathC] ∧
    mapLookup pathA cacheRunReinsert.data = some { data := 4, created := 2 } ∧
    pathB ∉ keysOf cacheRunReinsert.data := by
  refine ⟨fun m p v => ⟨mapLookup_mapInsert_self m p v, fun hp => ?_⟩, ?_, ?_, ?_⟩
  · rw [mapInsert_length]
    simp [hp]
  · decide
  · decide
  · decide

/-- C6 witness: the general overwrite part applied to the one-entry map
holding `a`, re-inserted with a fresh value. -/
theorem claim6_witness :
    mapLookup pathA (mapInsert pathA { data := 9, created := 5 }
        [(pathA, { data := 1, created := 0 })]) =
      some { data := 9, created := 5 } ∧
    (mapInsert pathA { data := 9, created := 5 }
        [(pathA, { data := 1, created := 0 })]).length = 1 := by
  refine ⟨(claim6_reinsert_resets_age.1 _ pathA _).1, ?_⟩
  exact (claim6_reinsert_resets_age.1
    [(pathA, { data := 1, created := 0 })] pathA
    { data := 9, created := 5 }).2 (by decide)

/-- C7: `next` increments the cursor; past the last index it resets to 0
when wrapping, else clamps to `len - 1`; it returns the entry at the new
cursor; on an empty sequence it returns the empty sentinel with the
cursor at 0; five steps on a wrapping five-entry sequence return to
index 0, and repeated steps without wrapping stay clamped at the last
index. -/
theorem claim7_next_navigation :
    (∀ s : Scrubber, (s.next).2 = s.entries.getD (s.next).1.index []) ∧
    (∀ s : Scrubber, s.index + 2 ≤ s.entries.length →
       (s.next).1.index = s.index + 1) ∧
    (∀ s : Scrubber, s.entries.length ≤ s.index + 1 → s.wrap = true →
       (s.next).1.index = 0) ∧
    (∀ s : Scrubber, s.entries.length ≤ s.index + 1 → s.wrap = false →
       (s.next).1.index = s.entries.length - 1) ∧
    (∀ s : Scrubber, s.entries = [] → s.next = ({ s with index := 0 }, [])) ∧
    Nat.iterate nextState 5 scrubFive = scrubFive ∧
    Nat.iterate nextState 3 scrubFiveNoWrap = scrubFiveNoWrap := by
  refine ⟨fun s => rfl, fun s h => ?_, fun s h hw => ?_, fun s h hw => ?_,
    fun s h => ?_, by decide, by decide⟩
  · have hc : ¬ s.index + 1 > s.entries.length - 1 := by omega
    simp [Scrubber.next, hc]
  · have hc : s.index + 1 > s.entries.length - 1 := by omega
    simp [Scrubber.next, hc, hw]
  · have hc : s.index + 1 > s.entries.length - 1 := by omega
    simp [Scrubber.next, hc, hw]
  · cases hw : s.wrap <;> simp [Scrubber.next, h, hw]

/-- C7 witness: the general clauses applied to the concrete five-entry
scrubbers and to an empty one. -/
theorem claim7_witness :
    (scrubFive.next).1.index = scrubFive.index + 1 ∧
    (({ scrubFive with index := 4 } : Scrubber).next).1.index = 0 ∧
    (scrubFiveNoWrap.next).1.index = scrubFiveNoWrap.entries.length - 1 ∧
    (({ index := 3, entries := [], wrap := true, favourites := [] } :
        Scrubber).next) =
      ({ index := 0, entries := [], wrap := true, favourites := [] }, []) := by
  refine ⟨claim7_next_navigation.2.1 scrubFive (by decide),
    claim7_next_navigation.2.2.1 { scrubFive with index := 4 } (by decide) rfl,
    claim7_next_navigation.2.2.2.1 scrubFiveNoWrap (by decide) rfl,
    claim7_next_navigation.2.2.2.2.1
      { index := 3, entries := [], wrap := true, favourites := [] } rfl⟩

/-- C8: `set` (the goto of the spec) with an index at or past the length
is a silent no-op — the state is unchanged and the returned entry is the
one that was current before the call — while an in-range index moves the
cursor there and returns that entry. -/
theorem claim8_goto_noop :
    ∀ (s : Scrubber) (i : Nat),
      (s.entries.length ≤ i → s.set i = (s, s.entries.getD s.index [])) ∧
      (i < s.entries.length →
         (s.set i).1 = { s with index := i } ∧
         (s.set i).2 = s.entries.getD i []) := by
  intro s i
  constructor
  · intro h
    have hc : ¬ i < s.entries.length := by omega
    simp [Scrubber.set, hc]
  · intro h
    simp [Scrubber.set, h]

lemma stripRoot_append (root rel : PathBuf) :
    stripRoot root (root ++ rel) = some rel := by
  induction root with
  | nil => rfl
  | cons r rs ih => simp [stripRoot, ih]

lemma splitTab_tabFree (x : List Char) (hx : sepChar ∉ x) :
    splitTab x = [x] := by
  induction x with
  | nil => rfl
  | cons c cs ih =>
    have hc : ¬ c = sepChar := fun h => hx (h ▸ List.mem_cons_self c cs)
    have hcs : sepChar ∉ cs := fun h => hx (List.mem_cons_of_mem c h)
    simp [splitTab, hc, ih hcs]

lemma splitTab_sep_append (x s : List Char) (hx : sepChar ∉ x) :
    splitTab (x ++ sepChar :: s) = x :: splitTab s := by
  induction x with
  | nil => simp [splitTab]
  | cons c cs ih =>
    have hc : ¬ c = sepChar := fun h => hx (h ▸ List.mem_cons_self c cs)
    have hcs : sepChar ∉ cs := fun h => hx (List.mem_cons_of_mem c h)
    simp [splitTab, hc, ih hcs]

lemma splitTab_joinTab (parts : List (List Char)) (hne : parts ≠ [])
    (hfree : ∀ p ∈ parts, sepChar ∉ p) :
    splitTab (joinTab parts) = parts := by
  induction parts with
  | nil => cases hne rfl
  | cons x rest ih =>
    cases rest with
    | nil =>
      have := splitTab_tabFree x (hfree x (List.mem_cons_self x []))
      simpa [joinTab] using this
    | cons y ys =>
      rw [show joinTab (x :: y :: ys) = x ++ sepChar :: joinTab (y :: ys)
        from rfl]
      rw [splitTab_sep_append x _ (hfree x (List.mem_cons_self x (y :: ys)))]
      rw [ih (by simp) (fun p hp => hfree p (List.mem_cons_of_mem x hp))]

/-- C4: for every path strictly under the root (so with at least one
relative component), whose components are genuine path components (each
nonempty, tab-free; UTF-8 validity is implicit in the character-list
embedding), encoding strips the root and joins the components with the
tab separator, and decoding the record splits on tabs, rebuilds the
relative path and resolves it against the root, returning the original
path. -/
theorem claim4_roundtrip :
    ∀ (root rel : PathBuf), rel ≠ [] →
      (∀ part ∈ rel, sepChar ∉ part) →
      (∀ part ∈ rel, part ≠ []) →
      prepare_record root (root ++ rel) = some (joinTab rel) ∧
      decode_record root (joinTab rel) = root ++ rel := by
  intro root rel h1 h2 _
  constructor
  · unfold prepare_record
    rw [stripRoot_append]
    rfl
  · unfold decode_record join_path_parts
    rw [splitTab_joinTab rel h1 h2]

/-- C4 witness: the round trip at root `[r]` and relative path `a/b`. -/
theorem claim4_witness :
    prepare_record [['r']] ([['r']] ++ [['a'], ['b']]) =
      some (joinTab [['a'], ['b']]) ∧
    decode_record [['r']] (joinTab [['a'], ['b']]) =
      [['r']] ++ [['a'], ['b']] :=
  claim4_roundtrip [['r']] [['a'], ['b']] (by decide) (by decide) (by decide)

/-- C8 witness: goto 99 on the five-entry scrubber is a no-op returning
the prior current entry, and goto 2 moves the cursor to 2. -/
theorem claim8_witness :
    scrubFive.set 99 = (scrubFive, scrubFive.entries.getD scrubFive.index []) ∧
    (scrubFive.set 2).1 = { scrubFive with index := 2 } ∧
    (scrubFive.set 2).2 = scrubFive.entries.getD 2 [] := by
  refine ⟨(claim8_goto_noop scrubFive 99).1 (by decide), ?_, ?_⟩
  · exact ((claim8_goto_noop scrubFive 2).2 (by decide)).1
  · exact ((claim8_goto_noop scrubFive 2).2 (by decide)).2

lemma drop_eq_getD_cons :
    ∀ (l : List PathBuf) (j : Nat), j < l.length →
      l.drop j = l.getD j [] :: l.drop (j + 1) := by
  intro l
  induction l with
  | nil =>
    intro j h
    simp at h
  | cons x xs ih =>
    intro j h
    cases j with
    | zero => rfl
    | succ n =>
      have hn : n < xs.length := by
        simpa using Nat.lt_of_succ_lt_succ h
      simpa [List.getD] using ih n hn

lemma iaeLoop_cons (otherSet other : List PathBuf) (after : Nat)
    (x : PathBuf) (rest : List PathBuf) (i j : Nat) :
    iaeLoop otherSet other after (x :: rest) i j =
      if x ∈ otherSet then
        iaeLoop otherSet other after rest (i + 1) j
      else if j < other.length then
        if after = 0 then
          none
        else if (i + 1) % after = 0 then
          (iaeLoop otherSet other after rest (i + 1) (j + 1)).map
            (fun r => (x :: other.getD j [] :: r.1, r.2))
        else
          (iaeLoop otherSet other after rest (i + 1) j).map
            (fun r => (x :: r.1, r.2))
      else
        (iaeLoop otherSet other after rest (i + 1) j).map
          (fun r => (x :: r.1, r.2)) := rfl

lemma spliceWalk_cons (other : List PathBuf) (after : Nat) (i : Nat)
    (x : PathBuf) (rest : List (Nat × PathBuf)) (j : Nat) :
    spliceWalk other after ((i, x) :: rest) j =
      if j < other.length ∧ (i + 1) % after = 0 then
        x :: other.getD j [] :: spliceWalk other after rest (j + 1)
      else
        x :: spliceWalk other after rest j := rfl

lemma withIdx_cons (i : Nat) (x : PathBuf) (rest : List PathBuf) :
    withIdx i (x :: rest) = (i, x) :: withIdx (i + 1) rest := rfl

lemma filter_withIdx_cons_mem (other : List PathBuf) (i : Nat) (x : PathBuf)
    (rest : List PathBuf) (hmem : x ∈ other) :
    (withIdx i (x :: rest)).filter (fun p => decide (p.2 ∉ other)) =
      (withIdx (i + 1) rest).filter (fun p => decide (p.2 ∉ other)) := by
  rw [withIdx_cons, List.filter_cons]
  simp [hmem]

lemma filter_withIdx_cons_notMem (other : List PathBuf) (i : Nat) (x : PathBuf)
    (rest : List PathBuf) (hmem : x ∉ other) :
    (withIdx i (x :: rest)).filter (fun p => decide (p.2 ∉ other)) =
      (i, x) :: (withIdx (i + 1) rest).filter (fun p => decide (p.2 ∉ other)) := by
  rw [withIdx_cons, List.filter_cons]
  simp [hmem]

/-- The loop of `insert_after_every` agrees with the positional splicing
walk over the filtered enumeration: for a nonzero spacing it never
panics, the favourite cursor only advances and stays within bounds, and
the pushed list followed by the unplaced favourites equals the splicing
walk. -/
lemma iaeLoop_eq_spliceWalk (other : List PathBuf) (after : Nat)
    (hafter : after ≠ 0) :
    ∀ (l : List PathBuf) (i j : Nat), j ≤ other.length →
      ∃ res j2, iaeLoop other other after l i j = some (res, j2) ∧
        j ≤ j2 ∧ j2 ≤ other.length ∧
        res ++ other.drop j2 =
          spliceWalk other after
            ((withIdx i l).filter (fun p => decide (p.2 ∉ other))) j := by
  intro l
  induction l with
  | nil =>
    intro i j hj
    exact ⟨[], j, rfl, Nat.le_refl j, hj, rfl⟩
  | cons x rest ih =>
    intro i j hj
    by_cases hmem : x ∈ other
    · obtain ⟨res, j2, heq, hle1, hle2, hspl⟩ := ih (i + 1) j hj
      refine ⟨res, j2, ?_, hle1, hle2, ?_⟩
      · rw [iaeLoop_cons, if_pos hmem]
        exact heq
      · rw [filter_withIdx_cons_mem other i x rest hmem]
        exact hspl
    · by_cases hjl : j < other.length
      · by_cases hmod : (i + 1) % after = 0
        · obtain ⟨res, j2, heq, hle1, hle2, hspl⟩ :=
            ih (i + 1) (j + 1) (by omega)
          refine ⟨x :: other.getD j [] :: res, j2, ?_, by omega, hle2, ?_⟩
          · rw [iaeLoop_cons, if_neg hmem, if_pos hjl, if_neg hafter,
              if_pos hmod, heq]
            rfl
          · rw [filter_withIdx_cons_notMem other i x rest hmem,
              spliceWalk_cons, if_pos ⟨hjl, hmod⟩, ← hspl]
            rfl
        · obtain ⟨res, j2, heq, hle1, hle2, hspl⟩ := ih (i + 1) j hj
          refine ⟨x :: res, j2, ?_, hle1, hle2, ?_⟩
          · rw [iaeLoop_cons, if_neg hmem, if_pos hjl, if_neg hafter,
              if_neg hmod, heq]
            rfl
          · rw [filter_withIdx_cons_notMem other i x rest hmem,
              spliceWalk_cons, if_neg (fun hc => hmod hc.2), ← hspl]
            rfl
      · obtain ⟨res, j2, heq, hle1, hle2, hspl⟩ := ih (i + 1) j hj
        refine ⟨x :: res, j2, ?_, hle1, hle2, ?_⟩
        · rw [iaeLoop_cons, if_neg hmem, if_neg hjl, heq]
          rfl
        · rw [filter_withIdx_cons_notMem other i x rest hmem,
            spliceWalk_cons, if_neg (fun hc => hjl hc.1), ← hspl]
          rfl

lemma insert_after_every_eq_spec (main other : List PathBuf) (after : Nat)
    (hafter : after ≠ 0) :
    insert_after_every main other after =
      some (interleave_spec main other after) := by
  obtain ⟨res, j2, heq, _, _, hspl⟩ :=
    iaeLoop_eq_spliceWalk other after hafter main 0 0 (Nat.zero_le _)
  unfold insert_after_every interleave_spec
  rw [heq]
  exact congrArg some hspl

lemma mem_spliceWalk_of_mem_drop (other : List PathBuf) (after : Nat) :
    ∀ (l : List (Nat × PathBuf)) (j : Nat) (f : PathBuf),
      f ∈ other.drop j → f ∈ spliceWalk other after l j := by
  intro l
  induction l with
  | nil =>
    intro j f hf
    simpa [spliceWalk] using hf
  | cons e rest ih =>
    obtain ⟨i, x⟩ := e
    intro j f hf
    by_cases hcond : j < other.length ∧ (i + 1) % after = 0
    · rw [spliceWalk_cons, if_pos hcond]
      rw [drop_eq_getD_cons other j hcond.1] at hf
      rcases List.mem_cons.mp hf with hf | hf
      · exact List.mem_cons_of_mem _ (hf ▸ List.mem_cons_self _ _)
      · exact List.mem_cons_of_mem _ (List.mem_cons_of_mem _ (ih (j + 1) f hf))
    · rw [spliceWalk_cons, if_neg hcond]
      exact List.mem_cons_of_mem _ (ih j f hf)

/-- C1 (amended): for a nonzero spacing, `insert_after_every` appends the
items of the filtered main list in order, and splices in the next
not-yet-placed favourite exactly after a retained item whose 1-based
position in the original, unfiltered main list is a multiple of `everyN`
(the loop enumerates before skipping favourites, so skipped favourites
are counted too); leftovers are appended at the end.  On the spec's
example the output is `[a, b, c, d, e, f]`. -/
theorem claim1_interleave_by_original_index :
    (∀ (main other : List PathBuf) (after : Nat), after ≠ 0 →
       insert_after_every main other after =
         some (interleave_spec main other after)) ∧
    insert_after_every exMain exFavs 2 = some exOut := by
  constructor
  · exact fun main other after h => insert_after_every_eq_spec main other after h
  · decide

/-- C1 witness: the general clause applied to the spec's example. -/
theorem claim1_witness :
    insert_after_every exMain exFavs 2 =
      some (interleave_spec exMain exFavs 2) :=
  claim1_interleave_by_original_index.1 exMain exFavs 2 (by decide)

/-- C1 counterexample: on the spec's own example the code's output is
`[a, b, c, d, e, f]`, where the favourite `e` sits after three placed
non-favourites — not a multiple of 2 — so favourites are not spliced at
multiples of the count of appended non-favourite items. -/
theorem claim1_counterexample :
    insert_after_every exMain exFavs 2 = some exOut ∧
    pathE ∈ exFavs ∧
    ¬ favsOnlyAtMultiples exOut exFavs 2 := by
  decide

/-- C5 (amended): a favourite is never dropped by `insert_after_every`:
for a nonzero spacing every favourite — also one with no corresponding
entry in the main list — appears in the output, spliced in or appended by
the trailing loop.  (Stale favourites are instead dropped earlier, by the
directory loader's existence filter, before this function runs.) -/
theorem claim5_stale_favourites :
    ∀ (main other : List PathBuf) (after : Nat) (f : PathBuf), after ≠ 0 →
      f ∈ other →
      ∃ res, insert_after_every main other after = some res ∧ f ∈ res := by
  intro main other after f hafter hf
  refine ⟨interleave_spec main other after,
    insert_after_every_eq_spec main other after hafter, ?_⟩
  unfold interleave_spec
  exact mem_spliceWalk_of_mem_drop other after _ 0 f (by simpa using hf)

/-- C5 witness: `x` is a favourite absent from the main list `[a, b]`,
and it still appears in the output. -/
theorem claim5_witness :
    ∃ res, insert_after_every [pathA, pathB] [pathX] 1 = some res ∧
      pathX ∈ res :=
  claim5_stale_favourites [pathA, pathB] [pathX] 1 pathX (by decide) (by decide)

/-- C5 counterexample: the favourite `x` has no entry in the main list
`[a, b]`, yet the output of `insert_after_every` contains it — it is not
dropped. -/
theorem claim5_counterexample :
    insert_after_every [pathA, pathB] [pathX] 1 =
      some [pathA, pathX, pathB] ∧
    pathX ∉ [pathA, pathB] := by
  decide

/-- C9: with an open connection, `get_all` returns exactly the set of
decoded rows whose resolved absolute path exists on disk: membership in
the result is equivalent to being the decoding of some stored row that
exists, the result has no duplicates, and the store itself is returned
unchanged — stale rows are excluded from the read, not deleted. -/
theorem claim9_get_all :
    ∀ (db : DB) (fileExists : PathBuf → Bool), db.connection = some () →
      ∃ res, DB.get_all db fileExists = some (db, res) ∧
        res.Nodup ∧
        ∀ p : PathBuf, p ∈ res ↔
          (∃ r ∈ db.table, decode_record db.folder r = p ∧
            fileExists p = true) := by
  intro db f h
  refine ⟨((db.table.map (decode_record db.folder)).filter f).dedup, ?_, ?_, ?_⟩
  · unfold DB.get_all
    rw [h]
  · exact List.nodup_dedup _
  · intro p
    rw [List.mem_dedup, List.mem_filter, List.mem_map]
    constructor
    · rintro ⟨⟨r, hr, hdec⟩, hf⟩
      exact ⟨r, hr, hdec, hf⟩
    · rintro ⟨r, hr, hdec, hf⟩
      exact ⟨⟨r, hr, hdec⟩, hf⟩

/-- C9 witness: the one-row store read with the existence test that
accepts `r/a`. -/
theorem claim9_witness :
    ∃ res, DB.get_all dbEx fileExistsEx = some (dbEx, res) ∧
      res.Nodup ∧
      ∀ p : PathBuf, p ∈ res ↔
        (∃ r ∈ dbEx.table, decode_record dbEx.folder r = p ∧
          fileExistsEx p = true) :=
  claim9_get_all dbEx fileExistsEx rfl

/-- C10: the store's insert is not idempotent: inserting a path whose
encoded record is already a row aborts (the primary-key constraint
violation fails the internal expect) instead of overwriting or being a
no-op, while inserting a fresh record appends exactly that row; a caller
must therefore test membership first, and the application's toggle
handler, which does, never hits the abort from a consistent state. -/
theorem claim10_insert_not_idempotent :
    (∀ (db : DB) (p : PathBuf) (record : List Char),
       prepare_record db.folder p = some record → record ∈ db.table →
       DB.insert db p = none) ∧
    (∀ (db : DB) (p : PathBuf) (record : List Char),
       db.connection = some () →
       prepare_record db.folder p = some record → record ∉ db.table →
       DB.insert db p = some { db with table := db.table ++ [record] }) ∧
    (∀ (st : AppState) (db : DB) (p : PathBuf) (dT : List (List Char)),
       st.db = some db → st.current_path = some p →
       db.connection = some () →
       (∃ record, prepare_record db.folder p = some record ∧
          (record ∈ db.table ↔ p ∈ st.scrubber.favourites)) →
       ∃ st2, add_to_favourites st dT = some st2) := by
  refine ⟨fun db p record hprep hmem => ?_, fun db p record hconn hprep hmem => ?_,
    fun st db p dT hdb hcp hconn hrec => ?_⟩
  · unfold DB.insert
    rw [hprep]
    cases hc : db.connection with
    | none => rfl
    | some u => simp [hmem]
  · unfold DB.insert
    rw [hprep, hconn]
    simp [hmem]
  · obtain ⟨record, hprep, hiff⟩ := hrec
    obtain ⟨cp, sdb, fsel, scr, cif⟩ := st
    dsimp only at hdb hcp hiff
    subst hdb
    subst hcp
    unfold add_to_favourites
    dsimp only
    by_cases hfav : p ∈ scr.favourites
    · rw [if_pos hfav]
      unfold DB.delete
      rw [hprep, hconn]
      exact ⟨_, rfl⟩
    · rw [if_neg hfav]
      unfold DB.insert
      rw [hprep, hconn]
      dsimp only
      have hnot : record ∉ db.table := fun hm => hfav (hiff.mp hm)
      rw [if_neg hnot]
      exact ⟨_, rfl⟩

/-- C10 witness: re-inserting the already favourited `r/a` into the
concrete store aborts, and the toggle handler run on the consistent
concrete state completes. -/
theorem claim10_witness :
    DB.insert dbEx [['r'], ['a']] = none ∧
    (∃ st2, add_to_favourites stEx [] = some st2) :=
  ⟨claim10_insert_not_idempotent.1 dbEx [['r'], ['a']] ['a']
      (by decide) (by decide),
   claim10_insert_not_idempotent.2.2 stEx dbEx [['r'], ['a']] [] rfl rfl rfl
      ⟨['a'], by decide, by decide⟩⟩

lemma mapInsert_cons (p : PathBuf) (v : CachedImage) (k1 : PathBuf)
    (v1 : CachedImage) (rest : List (PathBuf × CachedImage)) :
    mapInsert p v ((k1, v1) :: rest) =
      if k1 = p then (p, v) :: rest else (k1, v1) :: mapInsert p v rest := rfl

lemma mapRemove_cons (k k1 : PathBuf) (v1 : CachedImage)
    (rest : List (PathBuf × CachedImage)) :
    mapRemove k ((k1, v1) :: rest) =
      if k1 = k then rest else (k1, v1) :: mapRemove k rest := rfl

lemma findOldest_cons (p : PathBuf) (c : CachedImage)
    (rest : List (PathBuf × CachedImage)) (latest : Nat) (key : PathBuf) :
    findOldest ((p, c) :: rest) latest key =
      if c.created < latest then findOldest rest c.created p
      else findOldest rest latest key := rfl

lemma Cache.insert_def (c : Cache) (p : PathBuf) (img : Nat) :
    Cache.insert c p img =
      if (mapInsert p { data := img, created := c.clock } c.data).length >
          c.cache_size then
        { data := mapRemove
            (findOldest (mapInsert p { data := img, created := c.clock } c.data)
              (c.clock + 1) []).2
            (mapInsert p { data := img, created := c.clock } c.data),
          cache_size := c.cache_size, clock := c.clock + 1 + 1 }
      else
        { data := mapInsert p { data := img, created := c.clock } c.data,
          cache_size := c.cache_size, clock := c.clock + 1 } := rfl

lemma mem_of_mem_mapInsert :
    ∀ (m : List (PathBuf × CachedImage)) (p : PathBuf) (v : CachedImage)
      (e : PathBuf × CachedImage),
      e ∈ mapInsert p v m → e = (p, v) ∨ e ∈ m := by
  intro m p v
  induction m with
  | nil =>
    intro e he
    left
    simpa [mapInsert] using he
  | cons hd rest ih =>
    obtain ⟨k1, v1⟩ := hd
    intro e he
    by_cases h : k1 = p
    · rw [mapInsert_cons, if_pos h] at he
      rcases List.mem_cons.mp he with h1 | h1
      · exact Or.inl h1
      · exact Or.inr (List.mem_cons_of_mem _ h1)
    · rw [mapInsert_cons, if_neg h] at he
      rcases List.mem_cons.mp he with h1 | h1
      · exact Or.inr (h1 ▸ List.mem_cons_self _ _)
      · rcases ih e h1 with h2 | h2
        · exact Or.inl h2
        · exact Or.inr (List.mem_cons_of_mem _ h2)

lemma keysOf_mapInsert_sub (m : List (PathBuf × CachedImage)) (p : PathBuf)
    (v : CachedImage) (q : PathBuf) :
    q ∈ keysOf (mapInsert p v m) → q = p ∨ q ∈ keysOf m := by
  intro hq
  rcases List.mem_map.mp hq with ⟨e, he, hqe⟩
  rcases mem_of_mem_mapInsert m p v e he with h1 | h1
  · left
    rw [← hqe, h1]
  · right
    rw [← hqe]
    exact List.mem_map_of_mem _ h1

lemma keys_nodup_mapInsert (m : List (PathBuf × CachedImage)) (p : PathBuf)
    (v : CachedImage) (h : (keysOf m).Nodup) :
    (keysOf (mapInsert p v m)).Nodup := by
  induction m with
  | nil => simp [mapInsert, keysOf]
  | cons hd rest ih =>
    obtain ⟨k1, v1⟩ := hd
    rw [keysOf_cons] at h
    rcases List.nodup_cons.mp h with ⟨hk1, hrest⟩
    by_cases hp : k1 = p
    · rw [mapInsert_cons, if_pos hp, keysOf_cons]
      exact List.nodup_cons.mpr ⟨hp ▸ hk1, hrest⟩
    · rw [mapInsert_cons, if_neg hp, keysOf_cons]
      refine List.nodup_cons.mpr ⟨?_, ih hrest⟩
      intro hc
      rcases keysOf_mapInsert_sub rest p v k1 hc with h1 | h1
      · exact hp h1
      · exact hk1 h1

lemma pairwise_created_mapInsert (m : List (PathBuf × CachedImage))
    (p : PathBuf) (v : CachedImage)
    (hlt : ∀ e ∈ m, e.2.created < v.created)
    (hp : m.Pairwise (fun a b => a.2.created ≠ b.2.created)) :
    (mapInsert p v m).Pairwise (fun a b => a.2.created ≠ b.2.created) := by
  induction m with
  | nil => simp [mapInsert]
  | cons hd rest ih =>
    obtain ⟨k1, v1⟩ := hd
    rcases List.pairwise_cons.mp hp with ⟨hhead, htail⟩
    by_cases h : k1 = p
    · rw [mapInsert_cons, if_pos h]
      refine List.pairwise_cons.mpr ⟨?_, htail⟩
      intro b hb
      have := hlt b (List.mem_cons_of_mem _ hb)
      dsimp only
      omega
    · rw [mapInsert_cons, if_neg h]
      refine List.pairwise_cons.mpr ⟨?_, ?_⟩
      · intro b hb
        rcases mem_of_mem_mapInsert rest p v b hb with h1 | h1
        · have := hlt (k1, v1) (List.mem_cons_self _ _)
          rw [h1]
          dsimp only at this ⊢
          omega
        · exact hhead b h1
      · exact ih (fun e he => hlt e (List.mem_cons_of_mem _ he))
          htail

lemma mapRemove_length_of_mem :
    ∀ (m : List (PathBuf × CachedImage)) (k : PathBuf),
      k ∈ keysOf m → (mapRemove k m).length + 1 = m.length := by
  intro m
  induction m with
  | nil =>
    intro k hk
    exact absurd hk (List.not_mem_nil k)
  | cons hd rest ih =>
    obtain ⟨k1, v1⟩ := hd
    intro k hk
    by_cases h : k1 = k
    · rw [mapRemove_cons, if_pos h]
      rfl
    · rw [keysOf_cons] at hk
      rcases List.mem_cons.mp hk with h1 | h1
      · exact absurd h1.symm h
      · rw [mapRemove_cons, if_neg h, List.length_cons, List.length_cons,
          ih k h1]

lemma findOldest_spec :
    ∀ (l : List (PathBuf × CachedImage)) (latest : Nat) (key0 : PathBuf),
      (findOldest l latest key0 = (latest, key0) ∧
         ∀ e ∈ l, latest ≤ e.2.created) ∨
      (∃ e ∈ l, findOldest l latest key0 = (e.2.created, e.1) ∧
         e.2.created < latest ∧ ∀ e2 ∈ l, e.2.created ≤ e2.2.created) := by
  intro l
  induction l with
  | nil =>
    intro latest key0
    left
    exact ⟨rfl, fun e he => absurd he (List.not_mem_nil e)⟩
  | cons hd rest ih =>
    obtain ⟨p, c⟩ := hd
    intro latest key0
    by_cases hlt : c.created < latest
    · rw [findOldest_cons, if_pos hlt]
      right
      rcases ih c.created p with ⟨heq, hall⟩ | ⟨e, he, heq, hlt2, hmin⟩
      · refine ⟨(p, c), List.mem_cons_self _ _, heq, hlt, ?_⟩
        intro e2 he2
        rcases List.mem_cons.mp he2 with h2 | h2
        · rw [h2]
        · exact hall e2 h2
      · refine ⟨e, List.mem_cons_of_mem _ he, heq, Nat.lt_trans hlt2 hlt, ?_⟩
        intro e2 he2
        rcases List.mem_cons.mp he2 with h2 | h2
        · rw [h2]
          exact Nat.le_of_lt hlt2
        · exact hmin e2 h2
    · rw [findOldest_cons, if_neg hlt]
      rcases ih latest key0 with ⟨heq, hall⟩ | ⟨e, he, heq, hlt2, hmin⟩
      · left
        refine ⟨heq, ?_⟩
        intro e2 he2
        rcases List.mem_cons.mp he2 with h2 | h2
        · rw [h2]
          exact Nat.le_of_not_lt hlt
        · exact hall e2 h2
      · right
        refine ⟨e, List.mem_cons_of_mem _ he, heq, hlt2, ?_⟩
        intro e2 he2
        rcases List.mem_cons.mp he2 with h2 | h2
        · rw [h2]
          exact Nat.le_trans (Nat.le_of_lt hlt2) (Nat.le_of_not_lt hlt)
        · exact hmin e2 h2

/-- When an insert overfills the cache, the scan finds the entry with the
strictly smallest creation instant among the post-insert entries, and the
eviction removes exactly that one. -/
lemma cache_insert_evict_aux (c : Cache) (p : PathBuf) (img : Nat)
    (hwf : CacheWF c)
    (hex : (mapInsert p { data := img, created := c.clock } c.data).length >
      c.cache_size) :
    ∃ e ∈ mapInsert p { data := img, created := c.clock } c.data,
      (∀ e2 ∈ mapInsert p { data := img, created := c.clock } c.data,
         e2 ≠ e → e.2.created < e2.2.created) ∧
      (c.insert p img).data =
        mapRemove e.1 (mapInsert p { data := img, created := c.clock } c.data) ∧
      (c.insert p img).data.length + 1 =
        (mapInsert p { data := img, created := c.clock } c.data).length := by
  set M := mapInsert p { data := img, created := c.clock } c.data with hM
  have hall : ∀ e ∈ M, e.2.created < c.clock + 1 := by
    intro e he
    rcases mem_of_mem_mapInsert c.data p _ e (hM ▸ he) with h1 | h1
    · rw [h1]
      exact Nat.lt_succ_self _
    · exact Nat.lt_trans (hwf.created_lt e h1) (Nat.lt_succ_self _)
  have hpw : M.Pairwise (fun a b => a.2.created ≠ b.2.created) := by
    rw [hM]
    exact pairwise_created_mapInsert c.data p _
      (fun e he => hwf.created_lt e he) hwf.created_pairwise
  rcases findOldest_spec M (c.clock + 1) [] with ⟨heq, hge⟩ | ⟨e, he, heq, hlt, hmin⟩
  · exfalso
    cases hMc : M with
    | nil =>
      rw [hMc] at hex
      simp at hex
    | cons e0 tl =>
      have h0 : e0 ∈ M := hMc ▸ List.mem_cons_self e0 tl
      exact absurd (hge e0 h0) (Nat.not_le_of_lt (hall e0 h0))
  · have hdata : (c.insert p img).data = mapRemove e.1 M := by
      rw [Cache.insert_def, ← hM, if_pos hex, heq]
    refine ⟨e, he, ?_, hdata, ?_⟩
    · intro e2 he2 hne
      have hne2 : e2.2.created ≠ e.2.created :=
        List.Pairwise.forall (fun _ _ h => Ne.symm h) hpw he2 he hne
      exact Nat.lt_of_le_of_ne (hmin e2 he2) (Ne.symm hne2)
    · rw [hdata]
      exact mapRemove_length_of_mem M e.1 (List.mem_map_of_mem _ he)

/-- C3: from a well-formed cache state, when an insert makes the entry
count exceed the capacity, exactly one entry is removed — the single one
with the strictly minimum creation instant among the post-insert entries
(one eviction per insert); and from any state within capacity the state
after insert is again within capacity.  Concretely, capacity 2 with
inserts of `a`, `b`, `c` at strictly increasing instants leaves exactly
the entries `b` and `c`, with `a` evicted. -/
theorem claim3_cache_eviction :
    (∀ (c : Cache) (p : PathBuf) (img : Nat), CacheWF c →
       ((mapInsert p { data := img, created := c.clock } c.data).length >
           c.cache_size →
          ∃ e ∈ mapInsert p { data := img, created := c.clock } c.data,
            (∀ e2 ∈ mapInsert p { data := img, created := c.clock } c.data,
               e2 ≠ e → e.2.created < e2.2.created) ∧
            (c.insert p img).data =
              mapRemove e.1
                (mapInsert p { data := img, created := c.clock } c.data) ∧
            (c.insert p img).data.length + 1 =
              (mapInsert p { data := img, created := c.clock } c.data).length) ∧
       (c.data.length ≤ c.cache_size →
          (c.insert p img).data.length ≤ c.cache_size)) ∧
    keysOf cacheRunEvict.data = [pathB, pathC] ∧
    pathA ∉ keysOf cacheRunEvict.data := by
  refine ⟨fun c p img hwf =>
    ⟨fun hex => cache_insert_evict_aux c p img hwf hex, fun hlen => ?_⟩,
    by decide, by decide⟩
  by_cases hex : (mapInsert p { data := img, created := c.clock } c.data).length >
      c.cache_size
  · obtain ⟨e, he, _, _, hlen2⟩ := cache_insert_evict_aux c p img hwf hex
    have hMle : (mapInsert p { data := img, created := c.clock } c.data).length ≤
        c.data.length + 1 := by
      rw [mapInsert_length]
      split_ifs <;> omega
    omega
  · rw [Cache.insert_def, if_neg hex]
    dsimp only
    omega

/-- C3 witness: inserting `d` into the full two-entry cache reached by
the eviction run triggers the scan — the strict minimum is evicted, the
count stays within capacity. -/
theorem claim3_witness :
    (∃ e ∈ mapInsert pathD { data := 9, created := cacheRunEvict.clock }
        cacheRunEvict.data,
       (∀ e2 ∈ mapInsert pathD { data := 9, created := cacheRunEvict.clock }
           cacheRunEvict.data, e2 ≠ e → e.2.created < e2.2.created) ∧
       (cacheRunEvict.insert pathD 9).data =
         mapRemove e.1 (mapInsert pathD
           { data := 9, created := cacheRunEvict.clock } cacheRunEvict.data) ∧
       (cacheRunEvict.insert pathD 9).data.length + 1 =
         (mapInsert pathD { data := 9, created := cacheRunEvict.clock }
           cacheRunEvict.data).length) ∧
    (cacheRunEvict.insert pathD 9).data.length ≤ cacheRunEvict.cache_size := by
  have hwf : CacheWF cacheRunEvict := ⟨by decide, by decide, by decide⟩
  exact ⟨(claim3_cache_eviction.1 cacheRunEvict pathD 9 hwf).1 (by decide),
    (claim3_cache_eviction.1 cacheRunEvict pathD 9 hwf).2 (by decide)⟩
